import Mathlib

/-!
Verification of the FairGCRA rate limiter and the disk-usage eviction
controller, as a shallow embedding of the Rust sources
`libs/utils/src/leaky_bucket.rs` and
`pageserver/src/disk_usage_eviction_task.rs`.

Time is modelled with rationals: an `Instant` is a rational number of
(say) milliseconds since the monotonic clock's epoch at 0, and a
`Duration` is a non-negative rational. `Instant::checked_sub` returns
`none` exactly when the subtraction would land before the epoch.
-/

namespace LeakyBucket

/-- Embedding of `LeakyBucketConfig` (leaky_bucket.rs): `cost` is the time
price of one token, `bucket_width` the bucket size expressed as time. -/
structure LeakyBucketConfig where
  cost : ℚ
  bucket_width : ℚ
deriving DecidableEq, Repr

/-- Embedding of `LeakyBucketState`: the single `empty_at` timestamp. -/
structure LeakyBucketState where
  empty_at : ℚ
deriving DecidableEq, Repr

/-- `Instant::checked_sub`: `none` when the result would precede the
clock's epoch (modelled as 0). -/
def checkedSub (t d : ℚ) : Option ℚ :=
  if d ≤ t then some (t - d) else none

/-- The `new_empty_at` quantity of `add_tokens`: the clamped
`empty_at` (`if empty_at < started { empty_at = started }`) plus
`config.cost.mul_f64(n)`. -/
def newEmptyAt (config : LeakyBucketConfig) (s : LeakyBucketState)
    (started n : ℚ) : ℚ :=
  (if s.empty_at < started then started else s.empty_at) + config.cost * n

/-- Embedding of `LeakyBucketState::add_tokens` (leaky_bucket.rs lines
93-132). `started` and `now` are the caller's wait-start and the fresh
clock reading; `n` is the requested token count. Returns the
`Result<(), Instant>` together with the state after the call (the Rust
method mutates `self.empty_at` only on the `Ok` path). -/
def add_tokens (config : LeakyBucketConfig) (s : LeakyBucketState)
    (started now n : ℚ) : Except ℚ Unit × LeakyBucketState :=
  match checkedSub (newEmptyAt config s started n) config.bucket_width with
  | some allow_at =>
      if now < allow_at then (Except.error allow_at, s)
      else (Except.ok (), ⟨newEmptyAt config s started n⟩)
  | none => (Except.ok (), ⟨newEmptyAt config s started n⟩)

theorem checkedSub_of_le {t d : ℚ} (h : d ≤ t) : checkedSub t d = some (t - d) := by
  rw [checkedSub, if_pos h]

theorem checkedSub_of_lt {t d : ℚ} (h : t < d) : checkedSub t d = none := by
  rw [checkedSub, if_neg (not_le.mpr h)]

theorem add_tokens_eq_of_underflow (config : LeakyBucketConfig) (s : LeakyBucketState)
    (started now n : ℚ)
    (h : newEmptyAt config s started n < config.bucket_width) :
    add_tokens config s started now n =
      (Except.ok (), ⟨newEmptyAt config s started n⟩) := by
  unfold add_tokens
  rw [checkedSub_of_lt h]

theorem add_tokens_eq_of_err (config : LeakyBucketConfig) (s : LeakyBucketState)
    (started now n : ℚ)
    (h : config.bucket_width ≤ newEmptyAt config s started n)
    (h2 : now < newEmptyAt config s started n - config.bucket_width) :
    add_tokens config s started now n =
      (Except.error (newEmptyAt config s started n - config.bucket_width), s) := by
  unfold add_tokens
  rw [checkedSub_of_le h]
  exact if_pos h2

theorem add_tokens_eq_of_ok (config : LeakyBucketConfig) (s : LeakyBucketState)
    (started now n : ℚ)
    (h : config.bucket_width ≤ newEmptyAt config s started n)
    (h2 : ¬ now < newEmptyAt config s started n - config.bucket_width) :
    add_tokens config s started now n =
      (Except.ok (), ⟨newEmptyAt config s started n⟩) := by
  unfold add_tokens
  rw [checkedSub_of_le h]
  exact if_neg h2

/-- The clamped base is `max(empty_at, started)`. -/
theorem newEmptyAt_eq_max (config : LeakyBucketConfig) (s : LeakyBucketState)
    (started n : ℚ) :
    newEmptyAt config s started n = max s.empty_at started + n * config.cost := by
  rw [newEmptyAt, mul_comm]
  rcases lt_or_le s.empty_at started with h | h
  · rw [if_pos h, max_eq_right h.le]
  · rw [if_neg (not_lt.mpr h), max_eq_left h]

/-- **C1.** `add_tokens` computes `base = max(empty_at, started)`,
`new_empty = base + n × cost`, `allow = new_empty − bucket_width`
(−∞ when the checked subtraction underflows); it rejects with `allow`
and leaves the state unchanged when `now < allow`, and otherwise
accepts and sets `empty_at = new_empty`. -/
theorem add_tokens_spec (config : LeakyBucketConfig) (s : LeakyBucketState)
    (started now n : ℚ) (hc : 0 < config.cost) (hw : 0 < config.bucket_width)
    (hn : 0 ≤ n) (hsn : started ≤ now) :
    (config.bucket_width ≤ max s.empty_at started + n * config.cost ∧
        now < max s.empty_at started + n * config.cost - config.bucket_width →
      add_tokens config s started now n =
        (Except.error (max s.empty_at started + n * config.cost - config.bucket_width), s)) ∧
    (¬(config.bucket_width ≤ max s.empty_at started + n * config.cost ∧
        now < max s.empty_at started + n * config.cost - config.bucket_width) →
      add_tokens config s started now n =
        (Except.ok (), ⟨max s.empty_at started + n * config.cost⟩)) := by
  constructor
  · rintro ⟨h1, h2⟩
    rw [add_tokens_eq_of_err config s started now n
      (by rw [newEmptyAt_eq_max]; exact h1) (by rw [newEmptyAt_eq_max]; exact h2),
      newEmptyAt_eq_max]
  · intro h
    rcases lt_or_le (newEmptyAt config s started n) config.bucket_width with h1 | h1
    · rw [add_tokens_eq_of_underflow config s started now n h1, newEmptyAt_eq_max]
    · have h2 : ¬ now < newEmptyAt config s started n - config.bucket_width := by
        rw [newEmptyAt_eq_max]
        intro hx
        exact h ⟨by rw [← newEmptyAt_eq_max]; exact h1, hx⟩
      rw [add_tokens_eq_of_ok config s started now n h1 h2, newEmptyAt_eq_max]

/-- Witness for C1 at a concrete input. -/
theorem add_tokens_spec_witness :
    add_tokens ⟨1, 1⟩ ⟨0⟩ 0 0 0 = (Except.ok (), ⟨0⟩) := by
  have h := (add_tokens_spec ⟨1, 1⟩ ⟨0⟩ 0 0 0 (by norm_num) (by norm_num)
    le_rfl le_rfl).2
    (by rintro ⟨h1, _⟩; rw [max_self] at h1; norm_num at h1)
  simpa [max_self] using h

/-- **C2.** The over-bucket scenario with `cost = 10 ms`,
`bucket_width = 1 s` and an empty bucket at `t0`: a 200-token request at
`t0` fails with deadline `t0 + 1 s`; retried at `t0 + 0.5 s` (same
`started`) it fails with a deadline half a second ahead; at `t0 + 1 s`
it succeeds; immediately afterwards a 1-token request fails with a
deadline 10 ms ahead. In particular a request larger than
`bucket_width / cost` is not rejected as impossible. -/
theorem add_tokens_over_bucket_scenario (t0 : ℚ) (ht : 0 ≤ t0) :
    add_tokens ⟨10, 1000⟩ ⟨t0⟩ t0 t0 200 = (Except.error (t0 + 1000), ⟨t0⟩) ∧
    add_tokens ⟨10, 1000⟩ ⟨t0⟩ t0 (t0 + 500) 200 =
      (Except.error (t0 + 1000), ⟨t0⟩) ∧
    add_tokens ⟨10, 1000⟩ ⟨t0⟩ t0 (t0 + 1000) 200 =
      (Except.ok (), ⟨t0 + 2000⟩) ∧
    add_tokens ⟨10, 1000⟩ ⟨t0 + 2000⟩ (t0 + 1000) (t0 + 1000) 1 =
      (Except.error (t0 + 1010), ⟨t0 + 2000⟩) := by
  have hne1 : newEmptyAt ⟨10, 1000⟩ ⟨t0⟩ t0 200 = t0 + 2000 := by
    rw [newEmptyAt_eq_max]
    show max t0 t0 + 200 * 10 = t0 + 2000
    rw [max_self]; ring
  have hne2 : newEmptyAt ⟨10, 1000⟩ ⟨t0 + 2000⟩ (t0 + 1000) 1 = t0 + 2010 := by
    rw [newEmptyAt_eq_max]
    show max (t0 + 2000) (t0 + 1000) + 1 * 10 = t0 + 2010
    rw [max_eq_left (by linarith)]; ring
  refine ⟨?_, ?_, ?_, ?_⟩
  · rw [add_tokens_eq_of_err ⟨10, 1000⟩ ⟨t0⟩ t0 t0 200
      (by rw [hne1]; show (1000 : ℚ) ≤ t0 + 2000; linarith)
      (by rw [hne1]; show t0 < t0 + 2000 - 1000; linarith), hne1,
      show t0 + 2000 - 1000 = t0 + 1000 from by ring]
  · rw [add_tokens_eq_of_err ⟨10, 1000⟩ ⟨t0⟩ t0 (t0 + 500) 200
      (by rw [hne1]; show (1000 : ℚ) ≤ t0 + 2000; linarith)
      (by rw [hne1]; show t0 + 500 < t0 + 2000 - 1000; linarith), hne1,
      show t0 + 2000 - 1000 = t0 + 1000 from by ring]
  · rw [add_tokens_eq_of_ok ⟨10, 1000⟩ ⟨t0⟩ t0 (t0 + 1000) 200
      (by rw [hne1]; show (1000 : ℚ) ≤ t0 + 2000; linarith)
      (by rw [hne1]; show ¬ t0 + 1000 < t0 + 2000 - 1000; intro hx; linarith), hne1]
  · rw [add_tokens_eq_of_err ⟨10, 1000⟩ ⟨t0 + 2000⟩ (t0 + 1000) (t0 + 1000) 1
      (by rw [hne2]; show (1000 : ℚ) ≤ t0 + 2010; linarith)
      (by rw [hne2]; show t0 + 1000 < t0 + 2010 - 1000; linarith), hne2,
      show t0 + 2010 - 1000 = t0 + 1010 from by ring]

/-- Witness for C2 at `t0 = 0`. -/
theorem add_tokens_over_bucket_scenario_witness :
    add_tokens ⟨10, 1000⟩ ⟨0⟩ 0 0 200 = (Except.error (0 + 1000), ⟨0⟩) ∧
    add_tokens ⟨10, 1000⟩ ⟨0⟩ 0 (0 + 500) 200 =
      (Except.error (0 + 1000), ⟨0⟩) ∧
    add_tokens ⟨10, 1000⟩ ⟨0⟩ 0 (0 + 1000) 200 =
      (Except.ok (), ⟨0 + 2000⟩) ∧
    add_tokens ⟨10, 1000⟩ ⟨0 + 2000⟩ (0 + 1000) (0 + 1000) 1 =
      (Except.error (0 + 1010), ⟨0 + 2000⟩) :=
  add_tokens_over_bucket_scenario 0 le_rfl

/-- Single-call monotonicity of `empty_at`, shared helper for the
sequence version. -/
theorem add_tokens_mono_single (config : LeakyBucketConfig)
    (hc : 0 ≤ config.cost) (s : LeakyBucketState) (started now n : ℚ)
    (hn : 0 ≤ n) :
    s.empty_at ≤ ((add_tokens config s started now n).2).empty_at := by
  have hb : s.empty_at ≤ newEmptyAt config s started n := by
    rw [newEmptyAt]
    have : (0 : ℚ) ≤ config.cost * n := mul_nonneg hc hn
    split_ifs with h
    · linarith
    · linarith
  rcases lt_or_le (newEmptyAt config s started n) config.bucket_width with h1 | h1
  · rw [add_tokens_eq_of_underflow config s started now n h1]
    exact hb
  · by_cases h2 : now < newEmptyAt config s started n - config.bucket_width
    · rw [add_tokens_eq_of_err config s started now n h1 h2]
    · rw [add_tokens_eq_of_ok config s started now n h1 h2]
      exact hb

/-- **C10.** `empty_at` never decreases across an `add_tokens` call
(whether it returns `Ok` or `Err`), and hence is monotonically
non-decreasing across any sequence of `add_tokens` calls. -/
theorem add_tokens_empty_at_monotone (config : LeakyBucketConfig)
    (hc : 0 ≤ config.cost) :
    (∀ (s : LeakyBucketState) (started now n : ℚ), 0 ≤ n → started ≤ now →
      s.empty_at ≤ ((add_tokens config s started now n).2).empty_at) ∧
    (∀ calls : List (ℚ × ℚ × ℚ),
      (∀ c ∈ calls, c.1 ≤ c.2.1 ∧ 0 ≤ c.2.2) →
      ∀ s : LeakyBucketState,
        s.empty_at ≤ (calls.foldl
          (fun st c => (add_tokens config st c.1 c.2.1 c.2.2).2) s).empty_at) := by
  refine ⟨fun s started now n hn _ => add_tokens_mono_single config hc s started now n hn, ?_⟩
  intro calls
  induction calls with
  | nil => intro _ s; exact le_rfl
  | cons c rest ih =>
    intro hall s
    have h1 := add_tokens_mono_single config hc s c.1 c.2.1 c.2.2
      (hall c (List.mem_cons_self c rest)).2
    have h2 := ih (fun d hd => hall d (List.mem_cons_of_mem c hd))
      ((add_tokens config s c.1 c.2.1 c.2.2).2)
    exact le_trans h1 h2

/-- Witness for C10 at a concrete input. -/
theorem add_tokens_empty_at_monotone_witness :
    (⟨(3 : ℚ)⟩ : LeakyBucketState).empty_at ≤
      ((add_tokens ⟨1, 5⟩ ⟨3⟩ 0 0 2).2).empty_at :=
  (add_tokens_empty_at_monotone ⟨1, 5⟩ (by norm_num)).1 ⟨3⟩ 0 0 2
    (by norm_num) le_rfl

end LeakyBucket

namespace Eviction

/-- A resident layer as seen by `collect_eviction_candidates`
(disk_usage_eviction_task.rs): its file size, its last-activity
timestamp, and an identity standing for the layer handle. -/
structure LayerInfo where
  file_size : ℕ
  last_activity_ts : ℕ
  layer_id : ℕ
deriving DecidableEq, Repr

/-- "Most-recently-used first": the key order of
`sort_unstable_by_key(|l| Reverse(l.last_activity_ts))`. -/
def tsDesc (a b : LayerInfo) : Prop := b.last_activity_ts ≤ a.last_activity_ts

/-- Ascending `last_activity_ts`, the final order of the global `above`
and `below` lists (`sort_unstable_by_key(|c| c.last_activity_ts)`). -/
def tsAsc (a b : LayerInfo) : Prop := a.last_activity_ts ≤ b.last_activity_ts

instance : DecidableRel tsDesc := fun a b => Nat.decLe _ _

instance : DecidableRel tsAsc := fun a b => Nat.decLe _ _

instance : IsTotal LayerInfo tsDesc := ⟨fun a b => le_total b.last_activity_ts a.last_activity_ts⟩

instance : IsTrans LayerInfo tsDesc := ⟨fun _ _ _ hab hbc => le_trans hbc hab⟩

instance : IsTotal LayerInfo tsAsc := ⟨fun a b => le_total a.last_activity_ts b.last_activity_ts⟩

instance : IsTrans LayerInfo tsAsc := ⟨fun _ _ _ hab hbc => le_trans hab hbc⟩

/-- The tenant's candidates sorted most-recently-used first.  (The Rust
sort is unstable; any order of equal timestamps is admissible, and we
fix a stable one.) -/
def sortDescByTs (ls : List LayerInfo) : List LayerInfo :=
  List.insertionSort tsDesc ls

def sortAscByTs (ls : List LayerInfo) : List LayerInfo :=
  List.insertionSort tsAsc ls

/-- The `cumsum` loop of `collect_eviction_candidates` (lines 621-635):
walk the sorted candidates, put a layer in `above` when
`cumsum > min_resident_size` and in `below` otherwise, and add its file
size to `cumsum` after the decision.  Returns `(above, below)` in
encounter order. -/
def partitionWalk (minRes : ℕ) : ℕ → List LayerInfo → List LayerInfo × List LayerInfo
  | _, [] => ([], [])
  | cumsum, c :: rest =>
      let r := partitionWalk minRes (cumsum + c.file_size) rest
      if minRes < cumsum then (c :: r.1, r.2) else (r.1, c :: r.2)

/-- One tenant's contribution to `(above, below)`: sort by
`last_activity_ts` descending, then run the `cumsum` walk from 0. -/
def tenantPartition (minRes : ℕ) (ls : List LayerInfo) : List LayerInfo × List LayerInfo :=
  partitionWalk minRes 0 (sortDescByTs ls)

/-- Number of leading layers the walk puts into `below`. -/
def bCount (minRes : ℕ) : ℕ → List LayerInfo → ℕ
  | _, [] => 0
  | c, l :: ls => if minRes < c then 0 else bCount minRes (c + l.file_size) ls + 1

/-- Total file size of a list of layers. -/
def sizeSum (ls : List LayerInfo) : ℕ := (ls.map LayerInfo.file_size).sum

theorem partitionWalk_of_gt (minRes : ℕ) :
    ∀ (ls : List LayerInfo) (c : ℕ), minRes < c →
      partitionWalk minRes c ls = (ls, []) := by
  intro ls
  induction ls with
  | nil => intro c _; rfl
  | cons l rest ih =>
    intro c h
    have h2 : minRes < c + l.file_size := lt_of_lt_of_le h (Nat.le_add_right _ _)
    simp only [partitionWalk, ih (c + l.file_size) h2, if_pos h]

theorem partitionWalk_eq (minRes : ℕ) :
    ∀ (ls : List LayerInfo) (c : ℕ),
      partitionWalk minRes c ls =
        (ls.drop (bCount minRes c ls), ls.take (bCount minRes c ls)) := by
  intro ls
  induction ls with
  | nil => intro c; rfl
  | cons l rest ih =>
    intro c
    by_cases h : minRes < c
    · have h2 : minRes < c + l.file_size := lt_of_lt_of_le h (Nat.le_add_right _ _)
      simp only [partitionWalk, bCount, if_pos h,
        partitionWalk_of_gt minRes rest (c + l.file_size) h2,
        List.drop_zero, List.take_zero]
    · simp only [partitionWalk, bCount, if_neg h, ih (c + l.file_size), List.drop_succ_cons,
        List.take_succ_cons]

theorem bCount_le_length (minRes : ℕ) :
    ∀ (ls : List LayerInfo) (c : ℕ), bCount minRes c ls ≤ ls.length := by
  intro ls
  induction ls with
  | nil => intro c; exact le_rfl
  | cons l rest ih =>
    intro c
    simp only [bCount, List.length_cons]
    split_ifs
    · exact Nat.zero_le _
    · exact Nat.succ_le_succ (ih (c + l.file_size))

theorem bCount_iff (minRes : ℕ) :
    ∀ (ls : List LayerInfo) (c i : ℕ), i < ls.length →
      (i < bCount minRes c ls ↔ c + sizeSum (ls.take i) ≤ minRes) := by
  intro ls
  induction ls with
  | nil => intro c i h; exact absurd h (Nat.not_lt_zero i)
  | cons l rest ih =>
    intro c i hi
    cases i with
    | zero =>
      simp only [List.take_zero, sizeSum, List.map_nil, List.sum_nil, Nat.add_zero, bCount]
      split_ifs with h
      · simp only [Nat.not_lt_zero, false_iff]
        omega
      · simp only [Nat.succ_pos, true_iff]
        omega
    | succ j =>
      simp only [List.length_cons, Nat.succ_lt_succ_iff] at hi
      simp only [bCount, List.take_succ_cons, sizeSum, List.map_cons, List.sum_cons]
      split_ifs with h
      · simp only [Nat.not_lt_zero, false_iff]
        omega
      · rw [Nat.succ_lt_succ_iff, ih (c + l.file_size) j hi]
        simp only [sizeSum]
        omega

/-- **C3.** `collect_eviction_candidates` sorts a tenant's layers by
`last_activity_ts` descending and walks them with a running `cumsum`
starting at 0: a layer is placed in `below` exactly when the cumulative
size of the layers walked before it is `≤ min_resident_size`, in
`above` when it is greater, the layer's own size being added to the
cumulative sum only after its partition decision. -/
theorem collect_partition_spec (minRes : ℕ) (ls : List LayerInfo) :
    List.Sorted tsDesc (sortDescByTs ls) ∧
    (sortDescByTs ls).Perm ls ∧
    (tenantPartition minRes ls).2 =
      (sortDescByTs ls).take ((tenantPartition minRes ls).2.length) ∧
    (tenantPartition minRes ls).1 =
      (sortDescByTs ls).drop ((tenantPartition minRes ls).2.length) ∧
    (∀ i, i < (sortDescByTs ls).length →
      (i < (tenantPartition minRes ls).2.length ↔
        sizeSum ((sortDescByTs ls).take i) ≤ minRes)) := by
  have hwalk := partitionWalk_eq minRes (sortDescByTs ls) 0
  have hlen : ((tenantPartition minRes ls).2).length = bCount minRes 0 (sortDescByTs ls) := by
    rw [tenantPartition, hwalk]
    simp only [List.length_take]
    exact Nat.min_eq_left (bCount_le_length minRes (sortDescByTs ls) 0)
  refine ⟨List.sorted_insertionSort tsDesc ls, List.perm_insertionSort tsDesc ls, ?_, ?_, ?_⟩
  · rw [hlen, tenantPartition, hwalk]
  · rw [hlen, tenantPartition, hwalk]
  · intro i hi
    rw [hlen]
    have := bCount_iff minRes (sortDescByTs ls) 0 i hi
    rw [this]
    omega

/-- Witness for C3 at a concrete input. -/
theorem collect_partition_spec_witness :
    (0 < (tenantPartition 150 [(⟨100, 7, 0⟩ : LayerInfo)]).2.length ↔
      sizeSum ((sortDescByTs [(⟨100, 7, 0⟩ : LayerInfo)]).take 0) ≤ 150) :=
  (collect_partition_spec 150 [⟨100, 7, 0⟩]).2.2.2.2 0 (by decide)

/-- The two eviction-order partitions. -/
inductive MinResidentSizePartition
  | above
  | below
deriving DecidableEq, Repr

/-- The result struct of `collect_eviction_candidates`:
`above`/`below`, each finally sorted ascending by `last_activity_ts`. -/
structure MinResidentSizePartitionedCandidates where
  above : List LayerInfo
  below : List LayerInfo
deriving DecidableEq, Repr

/-- `MinResidentSizePartitionedCandidates::into_iter_in_eviction_order`:
all `above` candidates, then all `below` candidates, each tagged with
its partition. -/
def into_iter_in_eviction_order (p : MinResidentSizePartitionedCandidates) :
    List (MinResidentSizePartition × LayerInfo) :=
  p.above.map (fun c => (MinResidentSizePartition.above, c)) ++
    p.below.map (fun c => (MinResidentSizePartition.below, c))

/-- Single-tenant `collect_eviction_candidates`: partition the tenant's
layers, then sort each partition ascending by `last_activity_ts`. -/
def collectForTenant (minRes : ℕ) (ls : List LayerInfo) :
    MinResidentSizePartitionedCandidates :=
  ⟨sortAscByTs (tenantPartition minRes ls).1, sortAscByTs (tenantPartition minRes ls).2⟩

def demoLayer (i : ℕ) : LayerInfo := ⟨100, i, i⟩

def demoLayers : List LayerInfo :=
  [demoLayer 1, demoLayer 2, demoLayer 3, demoLayer 4, demoLayer 5]

/-- **C4, counterexample.** With five layers of size 100 and
`min_resident_size = 150`, the `below` partition holds exactly the TWO
most-recent layers, not three: the third most-recent layer (`demoLayer
3`) lands in `above` because its partition decision sees
`cumsum = 200 > 150`. -/
theorem collect_three_most_recent_cex :
    (tenantPartition 150 demoLayers).2 = [demoLayer 5, demoLayer 4] ∧
    demoLayer 3 ∈ (tenantPartition 150 demoLayers).1 ∧
    ¬ demoLayer 3 ∈ (tenantPartition 150 demoLayers).2 := by
  decide

/-- **C4, amended.** For a tenant whose layers all have file size 100
and whose `min_resident_size` is 150, exactly the two most-recent
layers are in `below` and all older layers in `above`; the consumer
iteration order is all `above` candidates oldest-first, then all
`below` candidates oldest-first. -/
theorem collect_two_most_recent_amended (ls : List LayerInfo)
    (hsz : ∀ l ∈ ls, l.file_size = 100) :
    (tenantPartition 150 ls).2 = (sortDescByTs ls).take 2 ∧
    (tenantPartition 150 ls).1 = (sortDescByTs ls).drop 2 ∧
    List.Sorted tsAsc ((collectForTenant 150 ls).above) ∧
    List.Sorted tsAsc ((collectForTenant 150 ls).below) ∧
    ((collectForTenant 150 ls).above).Perm ((tenantPartition 150 ls).1) ∧
    ((collectForTenant 150 ls).below).Perm ((tenantPartition 150 ls).2) ∧
    into_iter_in_eviction_order (collectForTenant 150 ls) =
      ((collectForTenant 150 ls).above).map (fun c => (MinResidentSizePartition.above, c)) ++
        ((collectForTenant 150 ls).below).map (fun c => (MinResidentSizePartition.below, c)) := by
  have hs : ∀ l ∈ sortDescByTs ls, l.file_size = 100 := fun l hl =>
    hsz l ((List.perm_insertionSort tsDesc ls).mem_iff.mp hl)
  have hpart : tenantPartition 150 ls =
      ((sortDescByTs ls).drop 2, (sortDescByTs ls).take 2) := by
    rw [tenantPartition]
    rcases hE : sortDescByTs ls with _ | ⟨a, _ | ⟨b, rest⟩⟩
    · rfl
    · have ha : a.file_size = 100 := hs a (by rw [hE]; exact List.mem_cons_self a [])
      simp only [partitionWalk, ha]
      norm_num
    · have ha : a.file_size = 100 := hs a (by rw [hE]; exact List.mem_cons_self _ _)
      have hb : b.file_size = 100 := hs b
        (by rw [hE]; exact List.mem_cons_of_mem _ (List.mem_cons_self _ _))
      simp only [partitionWalk, ha, hb, Nat.zero_add]
      rw [partitionWalk_of_gt 150 rest (100 + 100) (by norm_num)]
      norm_num [List.take_succ_cons, List.drop_succ_cons]
  refine ⟨by rw [hpart], by rw [hpart],
    List.sorted_insertionSort tsAsc _, List.sorted_insertionSort tsAsc _,
    List.perm_insertionSort tsAsc _, List.perm_insertionSort tsAsc _, rfl⟩

/-- Witness for the amended C4 at the five demo layers. -/
theorem collect_two_most_recent_amended_witness :
    (tenantPartition 150 demoLayers).2 = (sortDescByTs demoLayers).take 2 ∧
    (tenantPartition 150 demoLayers).1 = (sortDescByTs demoLayers).drop 2 ∧
    List.Sorted tsAsc ((collectForTenant 150 demoLayers).above) ∧
    List.Sorted tsAsc ((collectForTenant 150 demoLayers).below) ∧
    ((collectForTenant 150 demoLayers).above).Perm ((tenantPartition 150 demoLayers).1) ∧
    ((collectForTenant 150 demoLayers).below).Perm ((tenantPartition 150 demoLayers).2) ∧
    into_iter_in_eviction_order (collectForTenant 150 demoLayers) =
      ((collectForTenant 150 demoLayers).above).map
          (fun c => (MinResidentSizePartition.above, c)) ++
        ((collectForTenant 150 demoLayers).below).map
          (fun c => (MinResidentSizePartition.below, c)) :=
  collect_two_most_recent_amended demoLayers (by decide)

/-- `LayerCount` (disk_usage_eviction_task.rs): failed-eviction tally. -/
structure LayerCount where
  file_sizes : ℕ
  count : ℕ
deriving DecidableEq, Repr

/-- An `EvictionCandidate`: the owning timeline (by identity) and the
layer. -/
structure Candidate where
  timeline : ℕ
  layer : LayerInfo
deriving DecidableEq, Repr

/-- Partitioned candidates at the granularity `phase 1` consumes
(timeline id attached to each layer). -/
structure PartitionedCandidates where
  above : List Candidate
  below : List Candidate
deriving DecidableEq, Repr

def intoIterCandidates (p : PartitionedCandidates) :
    List (MinResidentSizePartition × Candidate) :=
  p.above.map (fun c => (MinResidentSizePartition.above, c)) ++
    p.below.map (fun c => (MinResidentSizePartition.below, c))

/-- `batched.entry(TimelineKey(timeline)).or_default().push(layer)`:
association list keyed by timeline identity.  (The `HashMap` iteration
order of the source is arbitrary; insertion order is one admissible
order.) -/
def addToBatch : List (ℕ × List LayerInfo) → ℕ → LayerInfo → List (ℕ × List LayerInfo)
  | [], t, l => [(t, [l])]
  | (t', ls) :: rest, t, l =>
      if t' = t then (t', ls ++ [l]) :: rest
      else (t', ls) :: addToBatch rest t l

/-- Phase 1 of `disk_usage_eviction_task_iteration_impl` (lines
349-372): walk candidates in eviction order while pressure persists,
record the planned usage at the first `Below` candidate in `warned`,
add each taken layer's size to the planned usage and group it by
timeline. Returns `(usage_planned, warned, batched)`. -/
def phase1 {U : Type} (hasP : U → Bool) (addB : U → ℕ → U) :
    U → Option U → List (ℕ × List LayerInfo) →
    List (MinResidentSizePartition × Candidate) →
    U × Option U × List (ℕ × List LayerInfo)
  | planned, warned, batched, [] => (planned, warned, batched)
  | planned, warned, batched, (part, c) :: rest =>
      if hasP planned = false then (planned, warned, batched)
      else
        let warned' :=
          if part = MinResidentSizePartition.below then
            (if warned.isNone then some planned else warned)
          else warned
        phase1 hasP addB (addB planned c.layer.file_size) warned'
          (addToBatch batched c.timeline c.layer) rest

/-- The per-layer result loop of phase 2 (lines 408-429): fold over the
zipped `(outcome, layer)` pairs, crediting `usage_assumed` on
`Some(Ok(true))`, accruing `evictions_failed` on `Some(Ok(false))`,
short-circuiting with the cancellation flag on `None`, and skipping
`Some(Err(_))`. -/
def processBatch {U : Type} (addB : U → ℕ → U) :
    U → LayerCount → List (Option (Except Unit Bool) × LayerInfo) →
    U × LayerCount × Bool
  | u, f, [] => (u, f, false)
  | u, f, (some (Except.ok true), l) :: rest =>
      processBatch addB (addB u l.file_size) f rest
  | u, f, (some (Except.ok false), l) :: rest =>
      processBatch addB u ⟨f.file_sizes + l.file_size, f.count + 1⟩ rest
  | u, f, (none, _) :: _ => (u, f, true)
  | u, f, (some (Except.error _), _) :: rest => processBatch addB u f rest

/-- Phase 2 (lines 392-439): call `evict_layers` per batch, process the
per-layer outcomes, then check cancellation.  The code checks
`cancel.is_cancelled()` after each batch; the `None` arm asserts
`cancel.is_cancelled()` and a `CancellationToken` never un-cancels, so
at that check the token is cancelled exactly when it was cancelled
externally (`c`) or a `None` outcome was seen in the batch.  Returns
`none` for the `Cancelled` short-circuit, together with the list of
`evict_layers` invocations actually made. -/
def phase2 {U : Type} (addB : U → ℕ → U)
    (evict : ℕ → List LayerInfo → Except Unit (List (Option (Except Unit Bool))))
    (c : Bool) :
    U → LayerCount → List (ℕ × List LayerInfo) → List (ℕ × List LayerInfo) →
    Option (U × LayerCount) × List (ℕ × List LayerInfo)
  | u, f, calls, [] => (some (u, f), calls)
  | u, f, calls, (t, batch) :: rest =>
      match evict t batch with
      | Except.error _ =>
          if c then (none, calls ++ [(t, batch)])
          else phase2 addB evict c u f (calls ++ [(t, batch)]) rest
      | Except.ok results =>
          match processBatch addB u f (results.zip batch) with
          | (u', f', sawNone) =>
              if c || sawNone then (none, calls ++ [(t, batch)])
              else phase2 addB evict c u' f' (calls ++ [(t, batch)]) rest

/-- `IterationOutcome`, with `Finished`'s `PlannedUsage` and
`AssumedUsage` fields flattened. -/
inductive IterationOutcome (U : Type)
  | noPressure
  | cancelled
  | finished (before : U) (respecting_tenant_min_resident_size : U)
      (fallback_to_global_lru : Option U) (projected_after : U) (failed : LayerCount)
deriving DecidableEq, Repr

/-- Embedding of `disk_usage_eviction_task_iteration_impl` (lines
286-449), generic over the `Usage` trait (`hasP`, `addB`).  `lockFree`
models the `try_lock` on `State::mutex` succeeding; `collected` is the
result of `collect_eviction_candidates` (`none` = `Cancelled`); `c` is
the external cancellation state during phase 2; `evict` is the
`Timeline::evict_layers` oracle.  Besides the outcome it returns
whether candidate collection was reached and the list of `evict_layers`
calls made. -/
def disk_usage_eviction_task_iteration_impl {U : Type} (hasP : U → Bool)
    (addB : U → ℕ → U)
    (evict : ℕ → List LayerInfo → Except Unit (List (Option (Except Unit Bool))))
    (lockFree : Bool) (usage_pre : U) (collected : Option PartitionedCandidates)
    (c : Bool) :
    Except String (IterationOutcome U × Bool × List (ℕ × List LayerInfo)) :=
  if lockFree = false then Except.error "iteration is already executing"
  else if hasP usage_pre = false then
    Except.ok (IterationOutcome.noPressure, false, [])
  else
    match collected with
    | none => Except.ok (IterationOutcome.cancelled, true, [])
    | some parts =>
        match phase1 hasP addB usage_pre none [] (intoIterCandidates parts) with
        | (plannedF, warned, batched) =>
            match phase2 addB evict c usage_pre ⟨0, 0⟩ [] batched with
            | (none, calls) => Except.ok (IterationOutcome.cancelled, true, calls)
            | (some (assumed, failed), calls) =>
                match warned with
                | some w => Except.ok
                    (IterationOutcome.finished usage_pre w (some plannedF) assumed failed,
                      true, calls)
                | none => Except.ok
                    (IterationOutcome.finished usage_pre plannedF none assumed failed,
                      true, calls)

/-- **C9.** When the initial usage snapshot reports no pressure, the
iteration returns `NoPressure`, collects no candidates, and makes no
`evict_layers` call. -/
theorem iteration_no_pressure (U : Type) (hasP : U → Bool) (addB : U → ℕ → U)
    (evict : ℕ → List LayerInfo → Except Unit (List (Option (Except Unit Bool))))
    (pre : U) (collected : Option PartitionedCandidates) (c : Bool)
    (h : hasP pre = false) :
    disk_usage_eviction_task_iteration_impl hasP addB evict true pre collected c =
      Except.ok (IterationOutcome.noPressure, false, []) := by
  unfold disk_usage_eviction_task_iteration_impl
  rw [if_neg (by simp), if_pos h]

/-- Witness for C9 at a concrete input. -/
theorem iteration_no_pressure_witness :
    disk_usage_eviction_task_iteration_impl (fun _ : ℕ => false) (fun u n => u + n)
        (fun _ _ => Except.ok []) true 0 none false =
      Except.ok (IterationOutcome.noPressure, false, []) :=
  iteration_no_pressure ℕ (fun _ => false) (fun u n => u + n)
    (fun _ _ => Except.ok []) 0 none false rfl

/-- **C8.** Phase 2 per-layer outcome handling: `Some(Ok(true))`
credits the layer's size to the assumed usage; `Some(Ok(false))` adds
the layer's size and a count of one to the failed tally; `Some(Err)` is
neither counted as evicted nor added to the tallies; a `None` outcome
at any position short-circuits the batch walk with the cancellation
flag, makes `phase2` stop right after that batch, and makes the
iteration return `IterationOutcome::Cancelled`. -/
theorem phase2_outcome_handling (U : Type) (addB : U → ℕ → U)
    (evict : ℕ → List LayerInfo → Except Unit (List (Option (Except Unit Bool)))) :
    (∀ (u : U) f l rest, processBatch addB u f ((some (Except.ok true), l) :: rest) =
        processBatch addB (addB u l.file_size) f rest) ∧
    (∀ (u : U) f l rest, processBatch addB u f ((some (Except.ok false), l) :: rest) =
        processBatch addB u ⟨f.file_sizes + l.file_size, f.count + 1⟩ rest) ∧
    (∀ (u : U) f l rest, processBatch addB u f ((none, l) :: rest) = (u, f, true)) ∧
    (∀ (u : U) f e l rest, processBatch addB u f ((some (Except.error e), l) :: rest) =
        processBatch addB u f rest) ∧
    (∀ (u : U) f pairs, (∃ l, (none, l) ∈ pairs) →
        (processBatch addB u f pairs).2.2 = true) ∧
    (∀ (c : Bool) (u : U) f calls t batch rest results,
        evict t batch = Except.ok results →
        (processBatch addB u f (results.zip batch)).2.2 = true →
        phase2 addB evict c u f calls ((t, batch) :: rest) =
          (none, calls ++ [(t, batch)])) ∧
    (∀ (hasP : U → Bool) (pre : U) (parts : PartitionedCandidates) (c : Bool)
        (calls : List (ℕ × List LayerInfo)),
        hasP pre = true →
        phase2 addB evict c pre ⟨0, 0⟩ []
            (phase1 hasP addB pre none [] (intoIterCandidates parts)).2.2 =
          (none, calls) →
        disk_usage_eviction_task_iteration_impl hasP addB evict true pre (some parts) c =
          Except.ok (IterationOutcome.cancelled, true, calls)) := by
  refine ⟨fun u f l rest => rfl, fun u f l rest => rfl, fun u f l rest => rfl,
    fun u f e l rest => rfl, ?_, ?_, ?_⟩
  · intro u f pairs
    induction pairs generalizing u f with
    | nil => rintro ⟨l, hl⟩; exact absurd hl (List.not_mem_nil _)
    | cons p rest ih =>
      rintro ⟨l, hl⟩
      rcases p with ⟨o, pl⟩
      match o with
      | none => rfl
      | some (Except.ok true) =>
        refine ih (addB u pl.file_size) f ⟨l, ?_⟩
        rcases List.mem_cons.mp hl with h | h
        · exact absurd (congrArg Prod.fst h) (by simp)
        · exact h
      | some (Except.ok false) =>
        refine ih u ⟨f.file_sizes + pl.file_size, f.count + 1⟩ ⟨l, ?_⟩
        rcases List.mem_cons.mp hl with h | h
        · exact absurd (congrArg Prod.fst h) (by simp)
        · exact h
      | some (Except.error e) =>
        refine ih u f ⟨l, ?_⟩
        rcases List.mem_cons.mp hl with h | h
        · exact absurd (congrArg Prod.fst h) (by simp)
        · exact h
  · intro c u f calls t batch rest results hev hnone
    unfold phase2
    rw [hev]
    rcases hpb : processBatch addB u f (results.zip batch) with ⟨u', f', sawNone⟩
    rw [hpb] at hnone
    simp only at hnone
    simp only [hpb, hnone, Bool.or_true, if_true]
  · intro hasP pre parts c calls hp h2
    unfold disk_usage_eviction_task_iteration_impl
    rw [if_neg (by simp), if_neg (by simp [hp])]
    rcases hp1 : phase1 hasP addB pre none [] (intoIterCandidates parts)
      with ⟨plannedF, warned, batched⟩
    rw [hp1] at h2
    simp only at h2
    simp only [hp1, h2]

/-- Witness for C8: a single below-partition candidate whose batch
returns a `None` outcome cancels the iteration. -/
theorem phase2_outcome_handling_witness :
    disk_usage_eviction_task_iteration_impl (fun _ : ℕ => true) (fun u n => u + n)
        (fun _ _ => Except.ok [none]) true 0
        (some ⟨[], [⟨0, ⟨1, 1, 1⟩⟩]⟩) false =
      Except.ok (IterationOutcome.cancelled, true, [(0, [⟨1, 1, 1⟩])]) :=
  (phase2_outcome_handling ℕ (fun u n => u + n)
      (fun _ _ => Except.ok [none])).2.2.2.2.2.2
    (fun _ => true) 0 ⟨[], [⟨0, ⟨1, 1, 1⟩⟩]⟩ false [(0, [⟨1, 1, 1⟩])] rfl rfl

end Eviction

namespace FairQueue

/-!
State-machine embedding of the `RateLimiter` queue of leaky_bucket.rs:
`Queue` (lines 146-150), `Enqueued::poll` (lines 217-260),
`Enqueued`'s `PinnedDrop` (lines 182-214) and the `acquire` loop
(lines 284-309).

Each waiter (one `acquire` call's pinned `Enqueued`) is an index into
`waiters`.  Its status mirrors the node lifecycle: `idle` (created, not
yet polled), `linked` (in the `PinList`, storing the `start_count`
snapshot taken at enqueue), `elected` (removed from the list by the
previous leader with the `RateToken` attached, not yet re-polled),
`holding` (the task holds the token; `loc` is the `u64` borrowed in
`this.token`, `gElect` is ghost state recording the global sleep-event
count at election), `done b` (acquire returned `b`, token handed off)
and `gone` (dropped).

`sleepCounter` is `Queue::sleep_counter`; `gsleeps` is ghost state
counting every sleep event (each `Err(_) => { *sleep_counter += 1 }` in
the acquire loop).  `nextArrival` stamps arrival (enqueue) order.
`acquire`'s completion (`Ok` return plus the drop of `Enqueued` that
immediately follows, the token being held throughout) is one atomic
step `tokensOk`; a cancelled waiter's drop is `drop`.
-/

inductive WStatus
  | idle
  | linked (start arrival : ℕ)
  | elected (start arrival : ℕ)
  | holding (start arrival loc gElect : ℕ)
  | done (throttled : Bool)
  | gone
deriving DecidableEq, Repr

/-- The shared limiter state: `Queue` plus ghost fields. -/
structure QState where
  sleepCounter : ℕ
  token : Bool
  queue : List ℕ
  waiters : List WStatus
  nextArrival : ℕ
  gsleeps : ℕ
deriving DecidableEq, Repr

/-- Actions: a task polls its waiter, the leader's `add_tokens` returns
`Ok` (completing `acquire`) or `Err` (sleep), or a waiter is dropped. -/
inductive QAct
  | poll (w : ℕ)
  | tokensOk (w : ℕ)
  | tokensErr (w : ℕ)
  | drop (w : ℕ)
deriving DecidableEq, Repr

def WStatus.isHolding : WStatus → Bool
  | holding _ _ _ _ => true
  | _ => false

def WStatus.isElected : WStatus → Bool
  | elected _ _ => true
  | _ => false

def WStatus.isLinked : WStatus → Bool
  | linked _ _ => true
  | _ => false

/-- Arrival stamp of a waiter that is linked, elected or holding. -/
def WStatus.arrival? : WStatus → Option ℕ
  | linked _ a => some a
  | elected _ a => some a
  | holding _ a _ _ => some a
  | _ => none

/-- Arrival stamp of waiter `w` (0 when not applicable). -/
def arrivalIn (ws : List WStatus) (w : ℕ) : ℕ :=
  ((ws.get? w).bind WStatus.arrival?).getD 0

/-- The drop handoff (lines 206-212): pop the queue head and elect it
(attaching the token), or put the token back when the queue is empty. -/
def handoff (s : QState) : Option QState :=
  match s.queue with
  | [] => some { s with token := true }
  | w :: rest =>
      match s.waiters.get? w with
      | some (WStatus.linked start arr) =>
          some { s with
                 queue := rest
                 waiters := s.waiters.set w (WStatus.elected start arr) }
      | _ => none

/-- One transition.  `poll` branches exactly as `Enqueued::poll`: an
unregistered waiter takes a free token (completing immediately) or
pushes itself to the back with `start_count = q.sleep_counter`; a
linked waiter's poll is spurious (waker refresh); an elected waiter
takes the removed-node token and reads `q.sleep_counter` into its
borrowed counter.  `tokensOk`/`tokensErr` are the two arms of the
acquire loop; `drop` is the `PinnedDrop` (lines 182-214). -/
def step (s : QState) : QAct → Option QState
  | QAct.poll w =>
      match s.waiters.get? w with
      | some WStatus.idle =>
          if s.token then
            some { s with
                   token := false
                   waiters := s.waiters.set w
                     (WStatus.holding s.sleepCounter s.nextArrival s.sleepCounter s.gsleeps)
                   nextArrival := s.nextArrival + 1 }
          else
            some { s with
                   queue := s.queue ++ [w]
                   waiters := s.waiters.set w (WStatus.linked s.sleepCounter s.nextArrival)
                   nextArrival := s.nextArrival + 1 }
      | some (WStatus.linked _ _) => some s
      | some (WStatus.elected start arr) =>
          some { s with
                 waiters :=
                   s.waiters.set w (WStatus.holding start arr s.sleepCounter s.gsleeps) }
      | _ => none
  | QAct.tokensOk w =>
      match s.waiters.get? w with
      | some (WStatus.holding start _ loc _) =>
          handoff { s with
                    sleepCounter := loc
                    waiters := s.waiters.set w (WStatus.done (decide (start < loc))) }
      | _ => none
  | QAct.tokensErr w =>
      match s.waiters.get? w with
      | some (WStatus.holding start arr loc g) =>
          some { s with
                 gsleeps := s.gsleeps + 1
                 waiters := s.waiters.set w (WStatus.holding start arr (loc + 1) g) }
      | _ => none
  | QAct.drop w =>
      match s.waiters.get? w with
      | some WStatus.idle => some { s with waiters := s.waiters.set w WStatus.gone }
      | some (WStatus.linked _ _) =>
          some { s with
                 queue := s.queue.erase w
                 waiters := s.waiters.set w WStatus.gone }
      | some (WStatus.elected _ _) =>
          handoff { s with waiters := s.waiters.set w WStatus.gone }
      | some (WStatus.holding _ _ loc _) =>
          handoff { s with
                    sleepCounter := loc
                    waiters := s.waiters.set w WStatus.gone }
      | _ => none

/-- `RateLimiter::with_initial_tokens`: empty queue, token present,
`sleep_counter = 0`, `n` not-yet-polled waiters. -/
def initState (n : ℕ) : QState :=
  ⟨0, true, [], List.replicate n WStatus.idle, 0, 0⟩

/-- Reachability under any interleaving of steps. -/
inductive Reach (n : ℕ) : QState → Prop
  | init : Reach n (initState n)
  | step (s s' : QState) (a : QAct) : Reach n s → step s a = some s' → Reach n s'

/-- Execute a list of actions (for concrete runs). -/
def run (s : QState) : List QAct → Option QState
  | [] => some s
  | a :: acts =>
      match step s a with
      | some s' => run s' acts
      | none => none

theorem countP_zero_get? {α : Type} {l : List α} {p : α → Bool} (h : l.countP p = 0)
    {i : ℕ} {x : α} (hg : l.get? i = some x) : p x = false := by
  have := List.countP_eq_zero.mp h x (List.get?_mem hg)
  simpa using this

theorem countP_pos_get? {α : Type} {l : List α} {p : α → Bool} {i : ℕ} {x : α}
    (hg : l.get? i = some x) (hp : p x = true) : 0 < l.countP p :=
  List.countP_pos.mpr ⟨x, List.get?_mem hg, hp⟩

theorem get?_set_self {α : Type} : ∀ (l : List α) (i : ℕ) (x y : α),
    l.get? i = some y → (l.set i x).get? i = some x := by
  intro l
  induction l with
  | nil => intro i x y h; cases h
  | cons a l ih =>
    intro i x y h
    cases i with
    | zero => rfl
    | succ j => exact ih j x y h

theorem countP_set_get? {α : Type} (p : α → Bool) :
    ∀ (l : List α) (i : ℕ) (x y : α), l.get? i = some y →
      (l.set i x).countP p + (if p y then 1 else 0)
        = l.countP p + (if p x then 1 else 0) := by
  intro l
  induction l with
  | nil => intro i x y h; cases h
  | cons a l ih =>
    intro i x y h
    cases i with
    | zero =>
      have hay : a = y := by simpa using h
      subst hay
      simp only [List.set, List.countP_cons]
      omega
    | succ j =>
      simp only [List.set, List.countP_cons]
      have := ih j x y h
      omega

theorem countP_ge_two {α : Type} (p : α → Bool) :
    ∀ (l : List α) (i j : ℕ) (x y : α), l.get? i = some x → l.get? j = some y →
      i ≠ j → p x = true → p y = true → 2 ≤ l.countP p := by
  intro l
  induction l with
  | nil => intro i j x y hi _ _ _ _; cases hi
  | cons a l ih =>
    intro i j x y hi hj hne hx hy
    cases i with
    | zero =>
      cases j with
      | zero => exact absurd rfl hne
      | succ j' =>
        have hax : a = x := by simpa using hi
        subst hax
        have h1 : 0 < l.countP p := countP_pos_get? hj hy
        rw [List.countP_cons, hx, if_pos rfl]
        omega
    | succ i' =>
      cases j with
      | zero =>
        have hay : a = y := by simpa using hj
        subst hay
        have h1 : 0 < l.countP p := countP_pos_get? hi hx
        rw [List.countP_cons, hy, if_pos rfl]
        omega
      | succ j' =>
        have := ih i' j' x y hi hj (fun he => hne (by rw [he])) hx hy
        simp only [List.countP_cons]
        omega

theorem arrivalIn_set_ne (ws : List WStatus) (w w' : ℕ) (st : WStatus)
    (hne : w ≠ w') : arrivalIn (ws.set w st) w' = arrivalIn ws w' := by
  rw [arrivalIn, arrivalIn, List.get?_set_ne st ws hne]

theorem map_arrivalIn_set (ws : List WStatus) (w : ℕ) (st : WStatus)
    (q : List ℕ) (hw : ¬ w ∈ q) :
    q.map (arrivalIn (ws.set w st)) = q.map (arrivalIn ws) :=
  List.map_congr_left fun x hx =>
    arrivalIn_set_ne ws w x st (fun he => hw (he ▸ hx))

/-- The inductive invariant of the limiter queue.  `tokCount` is the
token-conservation bookkeeping behind C7; `queueSorted`/`leaderFirst`
is the FIFO discipline behind C6; `ctrHolding`/`ctrFree` relate
`sleep_counter` and the borrowed per-leader counter to the ghost count
of sleep events, which settles C5. -/
structure Inv (s : QState) : Prop where
  tokCount : (if s.token then 1 else 0) + s.waiters.countP WStatus.isElected
      + s.waiters.countP WStatus.isHolding = 1
  tokenQueue : s.token = true → s.queue = []
  queueLinked : ∀ w ∈ s.queue, ∃ st a, s.waiters.get? w = some (WStatus.linked st a)
  queueSorted : List.Pairwise (· < ·) (s.queue.map (arrivalIn s.waiters))
  leaderFirst : ∀ i st, s.waiters.get? i = some st →
      (st.isElected || st.isHolding) = true →
      ∀ w ∈ s.queue, (st.arrival?).getD 0 < arrivalIn s.waiters w
  arrBound : ∀ i st a, s.waiters.get? i = some st → st.arrival? = some a →
      a < s.nextArrival
  ctrHolding : ∀ i start arr loc g,
      s.waiters.get? i = some (WStatus.holding start arr loc g) →
      loc = s.gsleeps ∧ s.sleepCounter = g
  ctrFree : s.waiters.countP WStatus.isHolding = 0 → s.sleepCounter = s.gsleeps

theorem Inv.nodup {s : QState} (h : Inv s) : s.queue.Nodup :=
  List.Nodup.of_map (arrivalIn s.waiters)
    ((List.Pairwise.imp (fun hlt => ne_of_lt hlt)) h.queueSorted)

theorem Inv.not_mem_queue {s : QState} (h : Inv s) {w : ℕ} {st : WStatus}
    (hw : s.waiters.get? w = some st) (hst : st.isLinked = false) :
    ¬ w ∈ s.queue := by
  intro hmem
  rcases h.queueLinked w hmem with ⟨st', a', hget⟩
  rw [hw] at hget
  cases hget
  cases hst

theorem inv_init (n : ℕ) : Inv (initState n) := by
  have hrep : ∀ p : WStatus → Bool, p WStatus.idle = false →
      (List.replicate n WStatus.idle).countP p = 0 := by
    intro p hp
    rw [List.countP_eq_zero]
    intro a ha
    rw [(List.mem_replicate.mp ha).2, hp]
    simp
  refine ⟨?_, fun _ => rfl, ?_, ?_, ?_, ?_, ?_, fun _ => rfl⟩
  · show (if true = true then 1 else 0)
        + (List.replicate n WStatus.idle).countP WStatus.isElected
        + (List.replicate n WStatus.idle).countP WStatus.isHolding = 1
    rw [hrep WStatus.isElected rfl, hrep WStatus.isHolding rfl]
    rfl
  · intro w hw; cases hw
  · exact List.Pairwise.nil
  · intro i st hget hst w hw; cases hw
  · intro i st a hget ha
    have hmem := List.get?_mem hget
    rw [(List.mem_replicate.mp hmem).2] at ha
    cases ha
  · intro i start arr loc g hget
    have hmem := List.get?_mem hget
    have := (List.mem_replicate.mp hmem).2
    cases this

/-- What holds of the intermediate state on which the drop handoff
runs: the dropping waiter has already been retired (no elected, no
holding waiter), the token is detached, and the written-back
`sleep_counter` equals the ghost sleep count. -/
structure PreHandoff (s : QState) : Prop where
  token : s.token = false
  cE : s.waiters.countP WStatus.isElected = 0
  cH : s.waiters.countP WStatus.isHolding = 0
  queueLinked : ∀ w ∈ s.queue, ∃ st a, s.waiters.get? w = some (WStatus.linked st a)
  queueSorted : List.Pairwise (· < ·) (s.queue.map (arrivalIn s.waiters))
  arrBound : ∀ i st a, s.waiters.get? i = some st → st.arrival? = some a →
      a < s.nextArrival
  ctrFree : s.sleepCounter = s.gsleeps

theorem handoff_nil_inv {s : QState} (h : PreHandoff s) (hq : s.queue = []) :
    Inv { s with token := true } := by
  refine ⟨?_, ?_, ?_, ?_, ?_, ?_, ?_, ?_⟩ <;> dsimp only
  · rw [h.cE, h.cH]
    rfl
  · intro _; exact hq
  · rw [hq]; intro w hw; cases hw
  · rw [hq]; exact List.Pairwise.nil
  · intro i st hget hEH w hw
    rw [hq] at hw
    cases hw
  · exact h.arrBound
  · intro i start arr loc g hget
    have := countP_zero_get? h.cH hget
    simp [WStatus.isHolding] at this
  · intro _; exact h.ctrFree

theorem handoff_cons_inv {s : QState} {w : ℕ} {rest : List ℕ} {st a : ℕ}
    (h : PreHandoff s) (hq : s.queue = w :: rest)
    (hw : s.waiters.get? w = some (WStatus.linked st a)) :
    Inv { s with queue := rest, waiters := s.waiters.set w (WStatus.elected st a) } := by
  have hsorted : List.Pairwise (· < ·)
      (arrivalIn s.waiters w :: rest.map (arrivalIn s.waiters)) := by
    have hs := h.queueSorted
    rw [hq, List.map_cons] at hs
    exact hs
  have hnodup : ¬ w ∈ rest := by
    intro hmem
    have := (List.pairwise_cons.mp hsorted).1 (arrivalIn s.waiters w)
      (List.mem_map_of_mem _ hmem)
    exact lt_irrefl _ this
  have harrw : arrivalIn s.waiters w = a := by
    rw [arrivalIn, hw]
    rfl
  have hE : (s.waiters.set w (WStatus.elected st a)).countP WStatus.isElected = 1 := by
    have := countP_set_get? WStatus.isElected s.waiters w (WStatus.elected st a)
      (WStatus.linked st a) hw
    simp [WStatus.isElected] at this
    rw [h.cE] at this
    omega
  have hH : (s.waiters.set w (WStatus.elected st a)).countP WStatus.isHolding = 0 := by
    have := countP_set_get? WStatus.isHolding s.waiters w (WStatus.elected st a)
      (WStatus.linked st a) hw
    simp [WStatus.isHolding] at this
    rw [h.cH] at this
    omega
  refine ⟨?_, ?_, ?_, ?_, ?_, ?_, ?_, ?_⟩ <;> dsimp only
  · rw [h.token, hE, hH]
    rfl
  · intro habs
    rw [h.token] at habs
    cases habs
  · intro w' hw'
    have hw'q : w' ∈ s.queue := by rw [hq]; exact List.mem_cons_of_mem w hw'
    rcases h.queueLinked w' hw'q with ⟨st', a', hget⟩
    have hne : w ≠ w' := fun he => hnodup (he ▸ hw')
    exact ⟨st', a', by rw [List.get?_set_ne _ _ hne]; exact hget⟩
  · rw [map_arrivalIn_set s.waiters w _ rest hnodup]
    exact (List.pairwise_cons.mp hsorted).2
  · intro i st' hget hEH w' hw'
    by_cases hiw : i = w
    · rw [hiw] at hget
      rw [get?_set_self _ _ _ _ hw] at hget
      injection hget with hget
      subst hget
      have hne : w ≠ w' := fun he => hnodup (he ▸ hw')
      rw [arrivalIn_set_ne _ _ _ _ hne]
      have := (List.pairwise_cons.mp hsorted).1 (arrivalIn s.waiters w')
        (List.mem_map_of_mem _ hw')
      rw [harrw] at this
      exact this
    · rw [List.get?_set_ne _ _ (fun he => hiw he.symm)] at hget
      rcases Bool.or_eq_true_iff.mp hEH with hE' | hH'
      · have := countP_zero_get? h.cE hget
        rw [this] at hE'
        cases hE'
      · have := countP_zero_get? h.cH hget
        rw [this] at hH'
        cases hH'
  · intro i st' a' hget ha'
    by_cases hiw : i = w
    · rw [hiw] at hget
      rw [get?_set_self _ _ _ _ hw] at hget
      injection hget with hget
      subst hget
      have : a = a' := by
        simpa [WStatus.arrival?] using ha'
      subst this
      exact h.arrBound w (WStatus.linked st a) a hw rfl
    · rw [List.get?_set_ne _ _ (fun he => hiw he.symm)] at hget
      exact h.arrBound i st' a' hget ha'
  · intro i start' arr' loc' g' hget
    by_cases hiw : i = w
    · rw [hiw] at hget
      rw [get?_set_self _ _ _ _ hw] at hget
      cases hget
    · rw [List.get?_set_ne _ _ (fun he => hiw he.symm)] at hget
      have := countP_zero_get? h.cH hget
      simp [WStatus.isHolding] at this
  · intro _; exact h.ctrFree

theorem handoff_inv {s s' : QState} (h : PreHandoff s) (he : handoff s = some s') :
    Inv s' := by
  unfold handoff at he
  split at he
  · injection he with he
    rename_i hq
    exact he ▸ handoff_nil_inv h hq
  · rename_i w rest hq
    split at he
    · rename_i st a hget
      injection he with he
      exact he ▸ handoff_cons_inv h hq hget
    · cases he

theorem Inv.token_facts {s : QState} (h : Inv s) (ht : s.token = true) :
    s.waiters.countP WStatus.isElected = 0 ∧
      s.waiters.countP WStatus.isHolding = 0 := by
  have htc := h.tokCount
  rw [ht] at htc
  simp only [if_true] at htc
  exact ⟨by omega, by omega⟩

theorem Inv.holding_facts {s : QState} {w start arr loc g : ℕ} (h : Inv s)
    (hw : s.waiters.get? w = some (WStatus.holding start arr loc g)) :
    s.token = false ∧ s.waiters.countP WStatus.isElected = 0 ∧
      s.waiters.countP WStatus.isHolding = 1 := by
  have hpos : 0 < s.waiters.countP WStatus.isHolding := countP_pos_get? hw rfl
  have htc := h.tokCount
  cases htok : s.token with
  | false =>
    rw [htok] at htc
    simp only [Bool.false_eq_true, if_false] at htc
    exact ⟨rfl, by omega, by omega⟩
  | true =>
    rw [htok] at htc
    simp only [if_true] at htc
    omega

theorem Inv.elected_facts {s : QState} {w start arr : ℕ} (h : Inv s)
    (hw : s.waiters.get? w = some (WStatus.elected start arr)) :
    s.token = false ∧ s.waiters.countP WStatus.isElected = 1 ∧
      s.waiters.countP WStatus.isHolding = 0 := by
  have hpos : 0 < s.waiters.countP WStatus.isElected := countP_pos_get? hw rfl
  have htc := h.tokCount
  cases htok : s.token with
  | false =>
    rw [htok] at htc
    simp only [Bool.false_eq_true, if_false] at htc
    exact ⟨rfl, by omega, by omega⟩
  | true =>
    rw [htok] at htc
    simp only [if_true] at htc
    omega

theorem inv_poll_idle_token {s : QState} {w : ℕ} (h : Inv s)
    (hw : s.waiters.get? w = some WStatus.idle) (ht : s.token = true) :
    Inv { s with
          token := false
          waiters := s.waiters.set w
            (WStatus.holding s.sleepCounter s.nextArrival s.sleepCounter s.gsleeps)
          nextArrival := s.nextArrival + 1 } := by
  have hq : s.queue = [] := h.tokenQueue ht
  rcases h.token_facts ht with ⟨hE0, hH0⟩
  have hsc : s.sleepCounter = s.gsleeps := h.ctrFree hH0
  have hE' : (s.waiters.set w
      (WStatus.holding s.sleepCounter s.nextArrival s.sleepCounter s.gsleeps)).countP
        WStatus.isElected = 0 := by
    have := countP_set_get? WStatus.isElected s.waiters w
      (WStatus.holding s.sleepCounter s.nextArrival s.sleepCounter s.gsleeps)
      WStatus.idle hw
    simp [WStatus.isElected] at this
    omega
  have hH' : (s.waiters.set w
      (WStatus.holding s.sleepCounter s.nextArrival s.sleepCounter s.gsleeps)).countP
        WStatus.isHolding = 1 := by
    have := countP_set_get? WStatus.isHolding s.waiters w
      (WStatus.holding s.sleepCounter s.nextArrival s.sleepCounter s.gsleeps)
      WStatus.idle hw
    simp [WStatus.isHolding] at this
    omega
  refine ⟨?_, ?_, ?_, ?_, ?_, ?_, ?_, ?_⟩ <;> dsimp only
  · rw [hE', hH']
    rfl
  · intro habs; cases habs
  · rw [hq]; intro w' hw'; cases hw'
  · rw [hq]; exact List.Pairwise.nil
  · intro i st hget hEH w' hw'
    rw [hq] at hw'
    cases hw'
  · intro i st a hget ha
    by_cases hiw : i = w
    · rw [hiw, get?_set_self _ _ _ _ hw] at hget
      injection hget with hget
      subst hget
      have : a = s.nextArrival := by simpa [WStatus.arrival?] using ha.symm
      omega
    · rw [List.get?_set_ne _ _ (fun he => hiw he.symm)] at hget
      have := h.arrBound i st a hget ha
      omega
  · intro i start' arr' loc' g' hget
    by_cases hiw : i = w
    · rw [hiw, get?_set_self _ _ _ _ hw] at hget
      injection hget with hget
      injection hget with h1 h2 h3 h4
      subst h3; subst h4
      exact ⟨hsc, hsc⟩
    · rw [List.get?_set_ne _ _ (fun he => hiw he.symm)] at hget
      have := countP_zero_get? hH0 hget
      simp [WStatus.isHolding] at this
  · intro _; exact hsc

theorem inv_poll_idle_noToken {s : QState} {w : ℕ} (h : Inv s)
    (hw : s.waiters.get? w = some WStatus.idle) (ht : s.token = false) :
    Inv { s with
          queue := s.queue ++ [w]
          waiters := s.waiters.set w (WStatus.linked s.sleepCounter s.nextArrival)
          nextArrival := s.nextArrival + 1 } := by
  have hwq : ¬ w ∈ s.queue := h.not_mem_queue hw rfl
  have hEeq : (s.waiters.set w (WStatus.linked s.sleepCounter s.nextArrival)).countP
      WStatus.isElected = s.waiters.countP WStatus.isElected := by
    have := countP_set_get? WStatus.isElected s.waiters w
      (WStatus.linked s.sleepCounter s.nextArrival) WStatus.idle hw
    simp [WStatus.isElected] at this
    omega
  have hHeq : (s.waiters.set w (WStatus.linked s.sleepCounter s.nextArrival)).countP
      WStatus.isHolding = s.waiters.countP WStatus.isHolding := by
    have := countP_set_get? WStatus.isHolding s.waiters w
      (WStatus.linked s.sleepCounter s.nextArrival) WStatus.idle hw
    simp [WStatus.isHolding] at this
    omega
  have harrW : arrivalIn (s.waiters.set w (WStatus.linked s.sleepCounter s.nextArrival)) w
      = s.nextArrival := by
    rw [arrivalIn, get?_set_self _ _ _ _ hw]
    rfl
  have hqbound : ∀ w' ∈ s.queue, arrivalIn s.waiters w' < s.nextArrival := by
    intro w' hw'
    rcases h.queueLinked w' hw' with ⟨st', a', hg⟩
    have : arrivalIn s.waiters w' = a' := by rw [arrivalIn, hg]; rfl
    rw [this]
    exact h.arrBound w' (WStatus.linked st' a') a' hg rfl
  refine ⟨?_, ?_, ?_, ?_, ?_, ?_, ?_, ?_⟩ <;> dsimp only
  · rw [hEeq, hHeq]; exact h.tokCount
  · intro habs; rw [ht] at habs; cases habs
  · intro w' hw'
    rcases List.mem_append.mp hw' with hin | hin
    · rcases h.queueLinked w' hin with ⟨st', a', hg⟩
      have hne : w ≠ w' := fun he => hwq (he ▸ hin)
      exact ⟨st', a', by rw [List.get?_set_ne _ _ hne]; exact hg⟩
    · have : w' = w := by simpa using hin
      subst this
      exact ⟨s.sleepCounter, s.nextArrival, get?_set_self _ _ _ _ hw⟩
  · rw [List.map_append]
    rw [map_arrivalIn_set s.waiters w _ s.queue hwq]
    refine List.pairwise_append.mpr ⟨h.queueSorted, ?_, ?_⟩
    · simp
    · intro x hx y hy
      rcases List.mem_map.mp hx with ⟨w', hw', hfx⟩
      have hy' : y = s.nextArrival := by
        rcases List.mem_map.mp hy with ⟨w'', hw'', hfy⟩
        have : w'' = w := by simpa using hw''
        subst this
        rw [← hfy, harrW]
      rw [hy', ← hfx]
      exact hqbound w' hw'
  · intro i st hget hEH w' hw'
    by_cases hiw : i = w
    · rw [hiw, get?_set_self _ _ _ _ hw] at hget
      injection hget with hget
      subst hget
      cases hEH
    · rw [List.get?_set_ne _ _ (fun he => hiw he.symm)] at hget
      rcases List.mem_append.mp hw' with hin | hin
      · have hne : w ≠ w' := fun he => hwq (he ▸ hin)
        rw [arrivalIn_set_ne _ _ _ _ hne]
        exact h.leaderFirst i st hget hEH w' hin
      · have : w' = w := by simpa using hin
        subst this
        rw [harrW]
        cases st with
        | elected st' a' =>
            have := h.arrBound i (WStatus.elected st' a') a' hget rfl
            simpa [WStatus.arrival?] using this
        | holding st' a' loc' g' =>
            have := h.arrBound i (WStatus.holding st' a' loc' g') a' hget rfl
            simpa [WStatus.arrival?] using this
        | idle => cases hEH
        | linked st' a' => cases hEH
        | done b => cases hEH
        | gone => cases hEH
  · intro i st a hget ha
    by_cases hiw : i = w
    · rw [hiw, get?_set_self _ _ _ _ hw] at hget
      injection hget with hget
      subst hget
      have : a = s.nextArrival := by simpa [WStatus.arrival?] using ha.symm
      omega
    · rw [List.get?_set_ne _ _ (fun he => hiw he.symm)] at hget
      have := h.arrBound i st a hget ha
      omega
  · intro i start' arr' loc' g' hget
    by_cases hiw : i = w
    · rw [hiw, get?_set_self _ _ _ _ hw] at hget
      cases hget
    · rw [List.get?_set_ne _ _ (fun he => hiw he.symm)] at hget
      exact h.ctrHolding i start' arr' loc' g' hget
  · intro hfree
    rw [hHeq] at hfree
    exact h.ctrFree hfree

theorem inv_poll_elected {s : QState} {w start arr : ℕ} (h : Inv s)
    (hw : s.waiters.get? w = some (WStatus.elected start arr)) :
    Inv { s with
          waiters := s.waiters.set w
            (WStatus.holding start arr s.sleepCounter s.gsleeps) } := by
  rcases h.elected_facts hw with ⟨htok, hE1, hH0⟩
  have hsc : s.sleepCounter = s.gsleeps := h.ctrFree hH0
  have hwq : ¬ w ∈ s.queue := h.not_mem_queue hw rfl
  have hE' : (s.waiters.set w
      (WStatus.holding start arr s.sleepCounter s.gsleeps)).countP WStatus.isElected = 0 := by
    have := countP_set_get? WStatus.isElected s.waiters w
      (WStatus.holding start arr s.sleepCounter s.gsleeps) (WStatus.elected start arr) hw
    simp [WStatus.isElected] at this
    omega
  have hH' : (s.waiters.set w
      (WStatus.holding start arr s.sleepCounter s.gsleeps)).countP WStatus.isHolding = 1 := by
    have := countP_set_get? WStatus.isHolding s.waiters w
      (WStatus.holding start arr s.sleepCounter s.gsleeps) (WStatus.elected start arr) hw
    simp [WStatus.isHolding] at this
    omega
  refine ⟨?_, ?_, ?_, ?_, ?_, ?_, ?_, ?_⟩ <;> dsimp only
  · rw [htok, hE', hH']
    rfl
  · intro habs; rw [htok] at habs; cases habs
  · intro w' hw'
    rcases h.queueLinked w' hw' with ⟨st', a', hg⟩
    have hne : w ≠ w' := fun he => hwq (he ▸ hw')
    exact ⟨st', a', by rw [List.get?_set_ne _ _ hne]; exact hg⟩
  · rw [map_arrivalIn_set s.waiters w _ s.queue hwq]
    exact h.queueSorted
  · intro i st hget hEH w' hw'
    have hne : w ≠ w' := fun he => hwq (he ▸ hw')
    rw [arrivalIn_set_ne _ _ _ _ hne]
    by_cases hiw : i = w
    · rw [hiw, get?_set_self _ _ _ _ hw] at hget
      injection hget with hget
      subst hget
      have := h.leaderFirst w (WStatus.elected start arr) hw rfl w' hw'
      simpa [WStatus.arrival?] using this
    · rw [List.get?_set_ne _ _ (fun he => hiw he.symm)] at hget
      exact h.leaderFirst i st hget hEH w' hw'
  · intro i st a hget ha
    by_cases hiw : i = w
    · rw [hiw, get?_set_self _ _ _ _ hw] at hget
      injection hget with hget
      subst hget
      have haa : a = arr := by simpa [WStatus.arrival?] using ha.symm
      rw [haa]
      exact h.arrBound w (WStatus.elected start arr) arr hw rfl
    · rw [List.get?_set_ne _ _ (fun he => hiw he.symm)] at hget
      exact h.arrBound i st a hget ha
  · intro i start' arr' loc' g' hget
    by_cases hiw : i = w
    · rw [hiw, get?_set_self _ _ _ _ hw] at hget
      injection hget with hget
      injection hget with h1 h2 h3 h4
      subst h3; subst h4
      exact ⟨hsc, hsc⟩
    · rw [List.get?_set_ne _ _ (fun he => hiw he.symm)] at hget
      have := countP_zero_get? hH0 hget
      simp [WStatus.isHolding] at this
  · intro _; exact hsc

theorem inv_tokensErr {s : QState} {w start arr loc g : ℕ} (h : Inv s)
    (hw : s.waiters.get? w = some (WStatus.holding start arr loc g)) :
    Inv { s with
          gsleeps := s.gsleeps + 1
          waiters := s.waiters.set w (WStatus.holding start arr (loc + 1) g) } := by
  rcases h.holding_facts hw with ⟨htok, hE0, hH1⟩
  rcases h.ctrHolding w start arr loc g hw with ⟨hloc, hslc⟩
  have hwq : ¬ w ∈ s.queue := h.not_mem_queue hw rfl
  have hE' : (s.waiters.set w (WStatus.holding start arr (loc + 1) g)).countP
      WStatus.isElected = 0 := by
    have := countP_set_get? WStatus.isElected s.waiters w
      (WStatus.holding start arr (loc + 1) g) (WStatus.holding start arr loc g) hw
    simp [WStatus.isElected] at this
    omega
  have hH' : (s.waiters.set w (WStatus.holding start arr (loc + 1) g)).countP
      WStatus.isHolding = 1 := by
    have := countP_set_get? WStatus.isHolding s.waiters w
      (WStatus.holding start arr (loc + 1) g) (WStatus.holding start arr loc g) hw
    simp [WStatus.isHolding] at this
    omega
  refine ⟨?_, ?_, ?_, ?_, ?_, ?_, ?_, ?_⟩ <;> dsimp only
  · rw [htok, hE', hH']
    rfl
  · intro habs; rw [htok] at habs; cases habs
  · intro w' hw'
    rcases h.queueLinked w' hw' with ⟨st', a', hg⟩
    have hne : w ≠ w' := fun he => hwq (he ▸ hw')
    exact ⟨st', a', by rw [List.get?_set_ne _ _ hne]; exact hg⟩
  · rw [map_arrivalIn_set s.waiters w _ s.queue hwq]
    exact h.queueSorted
  · intro i st hget hEH w' hw'
    have hne : w ≠ w' := fun he => hwq (he ▸ hw')
    rw [arrivalIn_set_ne _ _ _ _ hne]
    by_cases hiw : i = w
    · rw [hiw, get?_set_self _ _ _ _ hw] at hget
      injection hget with hget
      subst hget
      have := h.leaderFirst w (WStatus.holding start arr loc g) hw rfl w' hw'
      simpa [WStatus.arrival?] using this
    · rw [List.get?_set_ne _ _ (fun he => hiw he.symm)] at hget
      exact h.leaderFirst i st hget hEH w' hw'
  · intro i st a hget ha
    by_cases hiw : i = w
    · rw [hiw, get?_set_self _ _ _ _ hw] at hget
      injection hget with hget
      subst hget
      have haa : a = arr := by simpa [WStatus.arrival?] using ha.symm
      rw [haa]
      exact h.arrBound w (WStatus.holding start arr loc g) arr hw rfl
    · rw [List.get?_set_ne _ _ (fun he => hiw he.symm)] at hget
      exact h.arrBound i st a hget ha
  · intro i start' arr' loc' g' hget
    by_cases hiw : i = w
    · rw [hiw, get?_set_self _ _ _ _ hw] at hget
      injection hget with hget
      injection hget with h1 h2 h3 h4
      subst h3; subst h4
      exact ⟨by omega, hslc⟩
    · rw [List.get?_set_ne _ _ (fun he => hiw he.symm)] at hget
      have := countP_ge_two WStatus.isHolding s.waiters i w
        (WStatus.holding start' arr' loc' g') (WStatus.holding start arr loc g)
        hget hw hiw rfl rfl
      omega
  · intro hfree
    rw [hH'] at hfree
    cases hfree

/-- Retiring the current holder (normal completion writing back its
counter, or a cancellation drop) leaves a state on which the handoff
preserves the invariant. -/
theorem preHandoff_retire_holding {s : QState} {w start arr loc g : ℕ} (h : Inv s)
    (hw : s.waiters.get? w = some (WStatus.holding start arr loc g)) (st' : WStatus)
    (hE0 : st'.isElected = false) (hH0 : st'.isHolding = false)
    (ha0 : st'.arrival? = none) :
    PreHandoff { s with
                 sleepCounter := loc
                 waiters := s.waiters.set w st' } := by
  rcases h.holding_facts hw with ⟨htok, hcE, hcH⟩
  rcases h.ctrHolding w start arr loc g hw with ⟨hloc, _⟩
  have hwq : ¬ w ∈ s.queue := h.not_mem_queue hw rfl
  have hE' : (s.waiters.set w st').countP WStatus.isElected = 0 := by
    have := countP_set_get? WStatus.isElected s.waiters w st'
      (WStatus.holding start arr loc g) hw
    rw [hE0] at this
    simp [WStatus.isElected] at this
    omega
  have hH' : (s.waiters.set w st').countP WStatus.isHolding = 0 := by
    have := countP_set_get? WStatus.isHolding s.waiters w st'
      (WStatus.holding start arr loc g) hw
    rw [hH0] at this
    simp [WStatus.isHolding] at this
    omega
  refine ⟨?_, ?_, ?_, ?_, ?_, ?_, ?_⟩ <;> dsimp only
  · exact htok
  · exact hE'
  · exact hH'
  · intro w' hw'
    rcases h.queueLinked w' hw' with ⟨st'', a'', hg⟩
    have hne : w ≠ w' := fun he => hwq (he ▸ hw')
    exact ⟨st'', a'', by rw [List.get?_set_ne _ _ hne]; exact hg⟩
  · rw [map_arrivalIn_set s.waiters w _ s.queue hwq]
    exact h.queueSorted
  · intro i st'' a'' hget ha''
    by_cases hiw : i = w
    · rw [hiw, get?_set_self _ _ _ _ hw] at hget
      injection hget with hget
      rw [← hget, ha0] at ha''
      cases ha''
    · rw [List.get?_set_ne _ _ (fun he => hiw he.symm)] at hget
      exact h.arrBound i st'' a'' hget ha''
  · exact hloc

/-- Retiring an elected-but-never-repolled waiter on drop (no counter
write-back happens; the waiter never slept). -/
theorem preHandoff_retire_elected {s : QState} {w start arr : ℕ} (h : Inv s)
    (hw : s.waiters.get? w = some (WStatus.elected start arr)) (st' : WStatus)
    (hE0 : st'.isElected = false) (hH0 : st'.isHolding = false)
    (ha0 : st'.arrival? = none) :
    PreHandoff { s with waiters := s.waiters.set w st' } := by
  rcases h.elected_facts hw with ⟨htok, hcE, hcH⟩
  have hsc : s.sleepCounter = s.gsleeps := h.ctrFree hcH
  have hwq : ¬ w ∈ s.queue := h.not_mem_queue hw rfl
  have hE' : (s.waiters.set w st').countP WStatus.isElected = 0 := by
    have := countP_set_get? WStatus.isElected s.waiters w st'
      (WStatus.elected start arr) hw
    rw [hE0] at this
    simp [WStatus.isElected] at this
    omega
  have hH' : (s.waiters.set w st').countP WStatus.isHolding = 0 := by
    have := countP_set_get? WStatus.isHolding s.waiters w st'
      (WStatus.elected start arr) hw
    rw [hH0] at this
    simp [WStatus.isHolding] at this
    omega
  refine ⟨?_, ?_, ?_, ?_, ?_, ?_, ?_⟩ <;> dsimp only
  · exact htok
  · exact hE'
  · exact hH'
  · intro w' hw'
    rcases h.queueLinked w' hw' with ⟨st'', a'', hg⟩
    have hne : w ≠ w' := fun he => hwq (he ▸ hw')
    exact ⟨st'', a'', by rw [List.get?_set_ne _ _ hne]; exact hg⟩
  · rw [map_arrivalIn_set s.waiters w _ s.queue hwq]
    exact h.queueSorted
  · intro i st'' a'' hget ha''
    by_cases hiw : i = w
    · rw [hiw, get?_set_self _ _ _ _ hw] at hget
      injection hget with hget
      rw [← hget, ha0] at ha''
      cases ha''
    · rw [List.get?_set_ne _ _ (fun he => hiw he.symm)] at hget
      exact h.arrBound i st'' a'' hget ha''
  · exact hsc

theorem inv_drop_idle {s : QState} {w : ℕ} (h : Inv s)
    (hw : s.waiters.get? w = some WStatus.idle) :
    Inv { s with waiters := s.waiters.set w WStatus.gone } := by
  have hwq : ¬ w ∈ s.queue := h.not_mem_queue hw rfl
  have hE' : (s.waiters.set w WStatus.gone).countP WStatus.isElected
      = s.waiters.countP WStatus.isElected := by
    have := countP_set_get? WStatus.isElected s.waiters w WStatus.gone WStatus.idle hw
    simp [WStatus.isElected] at this
    omega
  have hH' : (s.waiters.set w WStatus.gone).countP WStatus.isHolding
      = s.waiters.countP WStatus.isHolding := by
    have := countP_set_get? WStatus.isHolding s.waiters w WStatus.gone WStatus.idle hw
    simp [WStatus.isHolding] at this
    omega
  refine ⟨?_, ?_, ?_, ?_, ?_, ?_, ?_, ?_⟩ <;> dsimp only
  · rw [hE', hH']; exact h.tokCount
  · exact h.tokenQueue
  · intro w' hw'
    rcases h.queueLinked w' hw' with ⟨st', a', hg⟩
    have hne : w ≠ w' := fun he => hwq (he ▸ hw')
    exact ⟨st', a', by rw [List.get?_set_ne _ _ hne]; exact hg⟩
  · rw [map_arrivalIn_set s.waiters w _ s.queue hwq]
    exact h.queueSorted
  · intro i st hget hEH w' hw'
    have hne : w ≠ w' := fun he => hwq (he ▸ hw')
    rw [arrivalIn_set_ne _ _ _ _ hne]
    by_cases hiw : i = w
    · rw [hiw, get?_set_self _ _ _ _ hw] at hget
      injection hget with hget
      subst hget
      cases hEH
    · rw [List.get?_set_ne _ _ (fun he => hiw he.symm)] at hget
      exact h.leaderFirst i st hget hEH w' hw'
  · intro i st a hget ha
    by_cases hiw : i = w
    · rw [hiw, get?_set_self _ _ _ _ hw] at hget
      injection hget with hget
      rw [← hget] at ha
      cases ha
    · rw [List.get?_set_ne _ _ (fun he => hiw he.symm)] at hget
      exact h.arrBound i st a hget ha
  · intro i start' arr' loc' g' hget
    by_cases hiw : i = w
    · rw [hiw, get?_set_self _ _ _ _ hw] at hget
      cases hget
    · rw [List.get?_set_ne _ _ (fun he => hiw he.symm)] at hget
      exact h.ctrHolding i start' arr' loc' g' hget
  · intro hfree
    rw [hH'] at hfree
    exact h.ctrFree hfree

theorem inv_drop_linked {s : QState} {w st a : ℕ} (h : Inv s)
    (hw : s.waiters.get? w = some (WStatus.linked st a)) :
    Inv { s with
          queue := s.queue.erase w
          waiters := s.waiters.set w WStatus.gone } := by
  have hnd : s.queue.Nodup := h.nodup
  have hmem_erase : ∀ w', w' ∈ s.queue.erase w → w' ≠ w ∧ w' ∈ s.queue :=
    fun w' hw' => (hnd.mem_erase_iff.mp hw')
  have hnotmem : ¬ w ∈ s.queue.erase w := fun hmem => (hmem_erase w hmem).1 rfl
  have hE' : (s.waiters.set w WStatus.gone).countP WStatus.isElected
      = s.waiters.countP WStatus.isElected := by
    have := countP_set_get? WStatus.isElected s.waiters w WStatus.gone
      (WStatus.linked st a) hw
    simp [WStatus.isElected] at this
    omega
  have hH' : (s.waiters.set w WStatus.gone).countP WStatus.isHolding
      = s.waiters.countP WStatus.isHolding := by
    have := countP_set_get? WStatus.isHolding s.waiters w WStatus.gone
      (WStatus.linked st a) hw
    simp [WStatus.isHolding] at this
    omega
  refine ⟨?_, ?_, ?_, ?_, ?_, ?_, ?_, ?_⟩ <;> dsimp only
  · rw [hE', hH']; exact h.tokCount
  · intro htok
    rw [h.tokenQueue htok]
    rfl
  · intro w' hw'
    rcases hmem_erase w' hw' with ⟨hne, hin⟩
    rcases h.queueLinked w' hin with ⟨st', a', hg⟩
    exact ⟨st', a', by rw [List.get?_set_ne _ _ (fun he => hne he.symm)]; exact hg⟩
  · rw [map_arrivalIn_set s.waiters w _ _ hnotmem]
    exact List.Pairwise.sublist ((List.erase_sublist w s.queue).map _) h.queueSorted
  · intro i st' hget hEH w' hw'
    rcases hmem_erase w' hw' with ⟨hne, hin⟩
    rw [arrivalIn_set_ne _ _ _ _ (fun he => hne he.symm)]
    by_cases hiw : i = w
    · rw [hiw, get?_set_self _ _ _ _ hw] at hget
      injection hget with hget
      subst hget
      cases hEH
    · rw [List.get?_set_ne _ _ (fun he => hiw he.symm)] at hget
      exact h.leaderFirst i st' hget hEH w' hin
  · intro i st' a' hget ha'
    by_cases hiw : i = w
    · rw [hiw, get?_set_self _ _ _ _ hw] at hget
      injection hget with hget
      rw [← hget] at ha'
      cases ha'
    · rw [List.get?_set_ne _ _ (fun he => hiw he.symm)] at hget
      exact h.arrBound i st' a' hget ha'
  · intro i start' arr' loc' g' hget
    by_cases hiw : i = w
    · rw [hiw, get?_set_self _ _ _ _ hw] at hget
      cases hget
    · rw [List.get?_set_ne _ _ (fun he => hiw he.symm)] at hget
      exact h.ctrHolding i start' arr' loc' g' hget
  · intro hfree
    rw [hH'] at hfree
    exact h.ctrFree hfree

/-- Every step preserves the invariant. -/
theorem step_inv {s s' : QState} {a : QAct} (h : Inv s)
    (hs : step s a = some s') : Inv s' := by
  cases a with
  | poll w =>
    simp only [step] at hs
    split at hs
    · rename_i hw
      split at hs
      · rename_i ht
        injection hs with hs
        exact hs ▸ inv_poll_idle_token h hw ht
      · rename_i ht
        have ht' : s.token = false := by
          revert ht
          cases s.token <;> simp
        injection hs with hs
        exact hs ▸ inv_poll_idle_noToken h hw ht'
    · rename_i st0 a0 hw
      injection hs with hs
      exact hs ▸ h
    · rename_i start arr hw
      injection hs with hs
      exact hs ▸ inv_poll_elected h hw
    · cases hs
  | tokensOk w =>
    simp only [step] at hs
    split at hs
    · rename_i start arr loc g hw
      exact handoff_inv
        (preHandoff_retire_holding h hw (WStatus.done (decide (start < loc))) rfl rfl rfl) hs
    · cases hs
  | tokensErr w =>
    simp only [step] at hs
    split at hs
    · rename_i start arr loc g hw
      injection hs with hs
      exact hs ▸ inv_tokensErr h hw
    · cases hs
  | drop w =>
    simp only [step] at hs
    split at hs
    · rename_i hw
      injection hs with hs
      exact hs ▸ inv_drop_idle h hw
    · rename_i st0 a0 hw
      injection hs with hs
      exact hs ▸ inv_drop_linked h hw
    · rename_i start arr hw
      exact handoff_inv (preHandoff_retire_elected h hw WStatus.gone rfl rfl rfl) hs
    · rename_i start arr loc g hw
      exact handoff_inv (preHandoff_retire_holding h hw WStatus.gone rfl rfl rfl) hs
    · cases hs

/-- Every reachable state satisfies the invariant. -/
theorem reach_inv {n : ℕ} {s : QState} (h : Reach n s) : Inv s := by
  induction h with
  | init => exact inv_init n
  | step s s' a _ hstep ih => exact step_inv ih hstep

/-- **C7.** In every reachable state exactly one of the following
holds: the queue's `token` field is present, some waiter is Holding, or
some waiter is Elected — the lock-token is never duplicated or lost. -/
theorem token_conservation (n : ℕ) (s : QState) (h : Reach n s) :
    (s.token = true ∧ ¬(∃ st ∈ s.waiters, st.isHolding = true) ∧
      ¬(∃ st ∈ s.waiters, st.isElected = true)) ∨
    (s.token = false ∧ (∃ st ∈ s.waiters, st.isHolding = true) ∧
      ¬(∃ st ∈ s.waiters, st.isElected = true)) ∨
    (s.token = false ∧ ¬(∃ st ∈ s.waiters, st.isHolding = true) ∧
      (∃ st ∈ s.waiters, st.isElected = true)) := by
  have hInv := reach_inv h
  have htc := hInv.tokCount
  cases htok : s.token with
  | true =>
    rw [htok] at htc
    simp only [if_true] at htc
    left
    refine ⟨rfl, ?_, ?_⟩
    · rintro ⟨st, hmem, hp⟩
      have := List.countP_pos.mpr ⟨st, hmem, hp⟩
      omega
    · rintro ⟨st, hmem, hp⟩
      have := List.countP_pos.mpr ⟨st, hmem, hp⟩
      omega
  | false =>
    rw [htok] at htc
    simp only [Bool.false_eq_true, if_false] at htc
    by_cases hH : s.waiters.countP WStatus.isHolding = 0
    · right; right
      refine ⟨rfl, ?_, ?_⟩
      · rintro ⟨st, hmem, hp⟩
        have := List.countP_pos.mpr ⟨st, hmem, hp⟩
        omega
      · exact List.countP_pos.mp (by omega)
    · right; left
      refine ⟨rfl, List.countP_pos.mp (by omega), ?_⟩
      rintro ⟨st, hmem, hp⟩
      have hEpos := List.countP_pos.mpr ⟨st, hmem, hp⟩
      omega

/-- Witness for C7: applying the conservation theorem at the initial
state yields that the token is present there. -/
theorem token_conservation_witness : (initState 1).token = true := by
  rcases token_conservation 1 (initState 1) Reach.init with
    ⟨h1, _, _⟩ | ⟨_, hex, _⟩ | ⟨_, _, hex⟩
  · exact h1
  · exfalso
    rcases hex with ⟨st, hmem, hp⟩
    have hst : st = WStatus.idle := by simpa [initState] using hmem
    rw [hst] at hp
    exact absurd hp (by decide)
  · exfalso
    rcases hex with ⟨st, hmem, hp⟩
    have hst : st = WStatus.idle := by simpa [initState] using hmem
    rw [hst] at hp
    exact absurd hp (by decide)

/-- **C6.** In every reachable state the queue is strictly sorted by
arrival order; any Elected or Holding waiter arrived before every
queued waiter (so a newly arriving waiter never jumps the queue, even
when a predecessor has just been elected); and when a waiter completes
(`tokensOk`), every waiter still queued arrived later. -/
theorem fifo_order (n : ℕ) (s : QState) (h : Reach n s) :
    List.Pairwise (· < ·) (s.queue.map (arrivalIn s.waiters)) ∧
    (∀ i st, s.waiters.get? i = some st →
      (st.isElected || st.isHolding) = true →
      ∀ w ∈ s.queue, (st.arrival?).getD 0 < arrivalIn s.waiters w) ∧
    (∀ w s', step s (QAct.tokensOk w) = some s' →
      ∀ w' ∈ s.queue, arrivalIn s.waiters w < arrivalIn s.waiters w') := by
  have hInv := reach_inv h
  refine ⟨hInv.queueSorted, hInv.leaderFirst, ?_⟩
  intro w s' hs w' hw'
  simp only [step] at hs
  split at hs
  · rename_i start arr loc g hwget
    have hlf := hInv.leaderFirst w (WStatus.holding start arr loc g) hwget rfl w' hw'
    have harr : arrivalIn s.waiters w = arr := by
      rw [arrivalIn, hwget]
      rfl
    rw [harr]
    simpa [WStatus.arrival?] using hlf
  · cases hs

/-- Witness for C6: after waiter 0 takes the token and waiter 1
enqueues, completing waiter 0 shows its arrival precedes waiter 1's. -/
theorem fifo_order_witness :
    arrivalIn [WStatus.holding 0 0 0 0, WStatus.linked 0 1] 0 <
      arrivalIn [WStatus.holding 0 0 0 0, WStatus.linked 0 1] 1 := by
  have hreach : Reach 2
      ⟨0, false, [1], [WStatus.holding 0 0 0 0, WStatus.linked 0 1], 2, 0⟩ :=
    Reach.step ⟨0, false, [], [WStatus.holding 0 0 0 0, WStatus.idle], 1, 0⟩
      ⟨0, false, [1], [WStatus.holding 0 0 0 0, WStatus.linked 0 1], 2, 0⟩
      (QAct.poll 1)
      (Reach.step (initState 2)
        ⟨0, false, [], [WStatus.holding 0 0 0 0, WStatus.idle], 1, 0⟩
        (QAct.poll 0) Reach.init (by decide)) (by decide)
  exact (fifo_order 2 _ hreach).2.2 0
    ⟨0, false, [], [WStatus.done false, WStatus.elected 0 1], 2, 0⟩
    (by decide) 1 (by decide)

/-- **C5, counterexample.**  The claim "the returned bool is false iff
no sleep event happened between that call's enqueue and its
completion" fails on the code.  Trace: waiter 0 takes the token and
sleeps once (its borrowed counter becomes 1 while `Queue::sleep_counter`
is still 0); waiter 1 then enqueues, snapshotting the stale
`sleep_counter = 0`; waiter 0 succeeds, writes back 1 and elects
waiter 1; waiter 1 re-polls (reading `sleep_counter = 1`) and succeeds
immediately.  No sleep event occurs after waiter 1's enqueue (the
suffix of the trace holds no `tokensErr`), yet waiter 1's `acquire`
returns `true` (`0 < 1`), contradicting the claimed iff. -/
theorem throttle_report_cex :
    ((run (initState 2)
        ([QAct.poll 0, QAct.tokensErr 0, QAct.poll 1] ++
          [QAct.tokensOk 0, QAct.poll 1, QAct.tokensOk 1])).bind
      (fun s => s.waiters.get? 1)) = some (WStatus.done true) ∧
    ([QAct.tokensOk 0, QAct.poll 1, QAct.tokensOk 1].countP
      (fun a => match a with | QAct.tokensErr _ => true | _ => false)) = 0 := by
  decide

/-- **C5, amended.**  A completing `acquire` reports `true` exactly
when a sleep event happened after the election of the waiter that held
the token at the call's enqueue (or after the enqueue itself, when no
waiter held the token then): in every reachable state (1) the current
holder's borrowed counter equals the ghost count of all sleep events
and `Queue::sleep_counter` still holds the ghost count as of that
holder's election, (2) with no holder, `sleep_counter` equals the ghost
count — so the `start_count` snapshot a waiter takes at enqueue is the
ghost count at that reference point — and (3) completion returns
`start_count < gsleeps`. -/
theorem throttle_report (n : ℕ) (s : QState) (h : Reach n s) :
    (∀ w start arr loc g,
      s.waiters.get? w = some (WStatus.holding start arr loc g) →
      loc = s.gsleeps ∧ s.sleepCounter = g) ∧
    (s.waiters.countP WStatus.isHolding = 0 → s.sleepCounter = s.gsleeps) ∧
    (∀ w start arr loc g s',
      s.waiters.get? w = some (WStatus.holding start arr loc g) →
      step s (QAct.tokensOk w) = some s' →
      s'.waiters.get? w = some (WStatus.done (decide (start < s.gsleeps)))) := by
  have hInv := reach_inv h
  refine ⟨fun w start arr loc g hw => hInv.ctrHolding w start arr loc g hw,
    hInv.ctrFree, ?_⟩
  intro w start arr loc g s' hw hs
  have hloc : loc = s.gsleeps := (hInv.ctrHolding w start arr loc g hw).1
  rw [← hloc]
  simp only [step] at hs
  split at hs
  · rename_i start1 arr1 loc1 g1 hwget
    rw [hw] at hwget
    injection hwget with hwget
    injection hwget with e1 e2 e3 e4
    subst e1; subst e2; subst e3; subst e4
    unfold handoff at hs
    split at hs
    · injection hs with hs
      rw [← hs]
      dsimp only
      exact get?_set_self _ _ _ _ hw
    · rename_i w2 rest2 hq2
      split at hs
      · rename_i st2 a2 hg2
        injection hs with hs
        rw [← hs]
        dsimp only
        have hne : w2 ≠ w := by
          intro he
          subst he
          rw [get?_set_self _ _ _ _ hw] at hg2
          cases hg2
        rw [List.get?_set_ne _ _ hne]
        exact get?_set_self _ _ _ _ hw
      · cases hs
  · cases hs

/-- Witness for the amended C5: with waiter 0 holding (no sleeps), its
completion writes back `done (decide (0 < 0)) = done false`. -/
theorem throttle_report_witness :
    (⟨0, true, [], [WStatus.done false, WStatus.idle], 1, 0⟩ : QState).waiters.get? 0 =
      some (WStatus.done (decide (0 < 0))) := by
  have hreach : Reach 2 ⟨0, false, [], [WStatus.holding 0 0 0 0, WStatus.idle], 1, 0⟩ :=
    Reach.step (initState 2)
      ⟨0, false, [], [WStatus.holding 0 0 0 0, WStatus.idle], 1, 0⟩
      (QAct.poll 0) Reach.init (by decide)
  exact (throttle_report 2 _ hreach).2.2 0 0 0 0 0
    ⟨0, true, [], [WStatus.done false, WStatus.idle], 1, 0⟩ (by decide) (by decide)

end FairQueue
